import Mathlib

/-!
# Verification of the `polyat` FASTQ poly-A/T scanner

Shallow embedding of `polyat/polyat.py`.  Python strings are modelled as
`List Char` (a `String` wrapper is provided where the claims speak of
strings); text streams are modelled as the list of lines `readline`
produces; the four per-file counters are a `Nat × Nat × Nat × Nat`.
-/

namespace Polyat

/-! ## Run-Length Scanner (`longest_poly_run`, polyat.py lines 99-115)

The Python loop keeps `longest`, `current` and `prev_char` (a string that
is either empty or a single character, modelled as `Option Char`) and
iterates over `sequence.upper()`. -/

/-- The `for base in sequence.upper():` loop body of `longest_poly_run`,
as a recursion over the remaining characters carrying the loop state
`(longest, current, prev_char)`. -/
def longest_poly_run_loop : List Char → Nat → Nat → Option Char → Nat
  | [], longest, _, _ => longest
  | base :: rest, longest, current, prev_char =>
    if base = 'A' ∨ base = 'T' then
      if prev_char = some base then
        let current' := current + 1
        longest_poly_run_loop rest (if current' > longest then current' else longest)
          current' prev_char
      else
        longest_poly_run_loop rest (if 1 > longest then 1 else longest) 1 (some base)
    else
      longest_poly_run_loop rest longest 0 none

/-- The body of `longest_poly_run` on a sequence given as a character list. -/
def longestPolyRunList (sequence : List Char) : Nat :=
  longest_poly_run_loop (sequence.map Char.toUpper) 0 0 none

/-- The function `longest_poly_run(sequence)` from polyat.py (lines 99-115). -/
def longest_poly_run (sequence : String) : Nat :=
  longestPolyRunList sequence.data

/-! ### Spec-side characterization of the scanner -/

/-- Length of the longest prefix of `l` consisting only of the character `c`. -/
def headRun (c : Char) : List Char → Nat
  | [] => 0
  | x :: l => if x = c then headRun c l + 1 else 0

/-- Declarative longest-monorun value: the maximum, over all positions,
of the single-character run starting there, restricted to runs of `'A'`
or `'T'`. -/
def maxRun : List Char → Nat
  | [] => 0
  | c :: l => if c = 'A' ∨ c = 'T' then max (headRun c l + 1) (maxRun l) else maxRun l

/-- A monorun: a (possibly empty) block of one repeated base, `A` or `T`. -/
def monoRun (t : List Char) : Prop :=
  ∃ c, (c = 'A' ∨ c = 'T') ∧ t = List.replicate t.length c

/-- Python `str.strip()`: drop whitespace from both ends. -/
def pystrip (l : List Char) : List Char :=
  ((l.dropWhile Char.isWhitespace).reverse.dropWhile Char.isWhitespace).reverse

/-- The `while True:` loop of `count_poly_runs` (lines 79-95): read a header
line, break if it is empty, read the sequence line and two further lines,
skip records whose stripped sequence is blank, otherwise bump the
counters. -/
def count_loop : List (List Char) → Nat → Nat → Nat → Nat → Nat × Nat × Nat × Nat
  | [], total, poly10, poly15, poly20 => (total, poly10, poly15, poly20)
  | header :: rest, total, poly10, poly15, poly20 =>
    if header = [] then (total, poly10, poly15, poly20)
    else
      let seq := pystrip ((rest.head?).getD [])
      if seq = [] then count_loop (rest.drop 3) total poly10 poly15 poly20
      else
        let longest := longestPolyRunList seq
        count_loop (rest.drop 3) (total + 1)
          (if longest ≥ 10 then poly10 + 1 else poly10)
          (if longest ≥ 15 then poly15 + 1 else poly15)
          (if longest ≥ 20 then poly20 + 1 else poly20)
  termination_by l _ _ _ _ => l.length
  decreasing_by all_goals (simp [List.length_drop]; omega)

/-- The function `count_poly_runs(file_path)` (lines 73-96) as a function of the list of
lines of the opened file. -/
def count_poly_runs (lines : List (List Char)) : Nat × Nat × Nat × Nat :=
  count_loop lines 0 0 0 0

/-- Spec-side Record Reader: the raw sequence line of each 4-line record,
up to the first unreadable header. -/
def recordSeqs : List (List Char) → List (List Char)
  | [] => []
  | header :: rest =>
    if header = [] then []
    else ((rest.head?).getD []) :: recordSeqs (rest.drop 3)
  termination_by l => l.length
  decreasing_by all_goals (simp [List.length_drop]; omega)

/-- The stripped, non-blank sequence lines the aggregator actually scans. -/
def readSeqs (lines : List (List Char)) : List (List Char) :=
  ((recordSeqs lines).map pystrip).filter (fun s => decide (s ≠ []))

/-- Number of scanned reads whose longest A/T run reaches `k`. -/
def countAtLeast (k : Nat) (lines : List (List Char)) : Nat :=
  ((readSeqs lines).filter (fun s => decide (k ≤ longestPolyRunList s))).length

/-! ## `format_percent` (lines 118-121)

Python computes `(count * 100) / total` by exact integer multiplication
followed by int/int true division, which CPython defines to return the
correctly rounded (nearest, ties to even) IEEE-754 binary64 double of the
exact quotient; `:.2f` then renders that double correctly rounded half to
even to two decimals.  Both roundings are exact integer computations and
are embedded as such below: the exact quotient `n / d` is rounded to 53
significant bits at exponent `⌊log₂ (n/d)⌋ - 52` (clamped below at the
subnormal limit `-1074`), and `100 ×` the resulting double is rounded
half to even to an integer — the number of hundredths `%.2f` prints. -/

/-- Round half to even of the quotient `a / b` (`0` when `b = 0`). -/
def rheDiv (a b : Nat) : Nat :=
  let q := a / b
  let r := a % b
  if 2 * r < b then q
  else if b < 2 * r then q + 1
  else if q % 2 = 0 then q else q + 1

/-- Fuel-driven floor base-2 logarithm by structural recursion. -/
def log2F : Nat → Nat → Nat
  | 0, _ => 0
  | fuel + 1, n => if 2 ≤ n then log2F fuel (n / 2) + 1 else 0

/-- Floor base-2 logarithm, kernel-computable; proved equal to
`Nat.log2`. -/
def natLog2 (n : Nat) : Nat := log2F n n

/-- For positive `n` and `d`, the integer `⌊log₂ (n / d)⌋`. -/
def ratILog2 (n d : Nat) : Int :=
  if d ≤ n then (natLog2 (n / d) : Int)
  else if d ≤ 2 ^ natLog2 (d / n) * n then -(natLog2 (d / n) : Int)
  else -(natLog2 (d / n) : Int) - 1

/-- The number of hundredths `%.2f` renders for the IEEE-754 binary64
double closest to `n / d` (ties to even): mantissa rounding of the exact
quotient at exponent `max (-1074) (⌊log₂ (n/d)⌋ - 52)`, then half-to-even
decimal rounding of `100 ×` the double. -/
def dblHundredths (n d : Nat) : Nat :=
  let e : Int := max (-1074) (ratILog2 n d - 52)
  if e ≤ 0 then
    let m := rheDiv (n * 2 ^ (-e).toNat) d
    rheDiv (100 * m) (2 ^ (-e).toNat)
  else
    100 * rheDiv n (d * 2 ^ e.toNat) * 2 ^ e.toNat

/-- The function `format_percent(count, total)` (lines 118-121): `"0.00"`
when `total = 0`, otherwise the `%.2f` rendering of the IEEE-754 double
`(count * 100) / total`. -/
def format_percent (count total : Nat) : String :=
  if total = 0 then "0.00"
  else
    let h := dblHundredths (100 * count) total
    toString (h / 100) ++ "." ++
      (if h % 100 < 10 then "0" ++ toString (h % 100) else toString (h % 100))

/-! ## File discovery and sample naming (lines 54-70) -/

/-- The predicate `has_fastq_suffix(filename)` (lines 54-56). -/
def has_fastq_suffix (filename : List Char) : Bool :=
  [".fastq".data, ".fastq.gz".data, ".fq".data, ".fq.gz".data].any
    (fun suffix => suffix.isSuffixOf filename)

/-- The suffix priority order tried by `sanitize_sample_name` (line 67). -/
def sample_suffixes : List (List Char) :=
  [".fastq.gz".data, ".fq.gz".data, ".fastq".data, ".fq".data]

/-- The function `sanitize_sample_name(file_path)` (lines 65-70) on the filename: return
`name[:-len(suffix)]` for the first suffix of the priority order that
matches, the name unchanged otherwise. -/
def sanitize_sample_name (name : List Char) : List Char :=
  if (".fastq.gz".data).isSuffixOf name then
    name.take (name.length - (".fastq.gz".data).length)
  else if (".fq.gz".data).isSuffixOf name then
    name.take (name.length - (".fq.gz".data).length)
  else if (".fastq".data).isSuffixOf name then
    name.take (name.length - (".fastq".data).length)
  else if (".fq".data).isSuffixOf name then
    name.take (name.length - (".fq".data).length)
  else name

/-- The per-sample text line assembled in `main` (lines 248-251). -/
def summary_line (sample : String) (total poly10 poly15 poly20 : Nat)
    (pct10 pct15 pct20 : String) : String :=
  sample ++ "\t" ++ toString total ++ "\t" ++ toString poly10 ++ "\t" ++
    toString poly15 ++ "\t" ++ toString poly20 ++ "\t" ++ pct10 ++ "\t" ++
    pct15 ++ "\t" ++ pct20

/-! ## Output-file effects of `main` (lines 217-269)

`main` is I/O code, but its output-file behaviour is fixed by the order of
its effects, which the model below records faithfully from the source:

* after argument/directory resolution, if no FASTQ file was found `main`
  exits before touching any output (line 224-225);
* otherwise `open(output_file, "w")` creates/truncates `polyA_counts.txt`
  at once and the header line is written immediately (lines 240-241),
  *before* any input file is read;
* inside the loop each file is counted (`count_poly_runs`, the point where
  an unopenable file or corrupt gzip stream raises) and its row is then
  written to the already-open text file (lines 242-252);
* `polyA_counts.html` is written only after the loop completes (line 266).

A per-file outcome is `Except Unit (Nat × Nat × Nat × Nat)`: `.error`
models `count_poly_runs` raising an uncaught I/O error for that file. -/

/-- The output table header (lines 227-237). -/
def header_line : String :=
  "Sample\tTotal_Reads\tPolyA/T_10+\tPolyA/T_15+\tPolyA/T_20+\t" ++
    "Percent_10+\tPercent_15+\tPercent_20+"

/-- State of the two output files when `main` terminates (normally or by an
uncaught exception): the text table's content (`none` = never created),
whether the HTML report was written, and whether the run completed. -/
structure MainResult where
  txt : Option (List String)
  htmlWritten : Bool
  completed : Bool
deriving DecidableEq

/-- The text row `main` writes for one counted file (lines 243-252). -/
def summary_row_line (filename : List Char) (counts : Nat × Nat × Nat × Nat) :
    String :=
  summary_line (String.mk (sanitize_sample_name filename))
    counts.1 counts.2.1 counts.2.2.1 counts.2.2.2
    (format_percent counts.2.1 counts.1)
    (format_percent counts.2.2.1 counts.1)
    (format_percent counts.2.2.2 counts.1)

/-- The `for file_path in fastq_files:` loop (lines 242-264) plus the final
HTML write (line 266), given the text lines already written. -/
def main_loop :
    List (List Char × Except Unit (Nat × Nat × Nat × Nat)) → List String →
      MainResult
  | [], written => { txt := some written, htmlWritten := true, completed := true }
  | (_, Except.error _) :: _, written =>
      { txt := some written, htmlWritten := false, completed := false }
  | (name, Except.ok counts) :: files, written =>
      main_loop files (written ++ [summary_row_line name counts])

/-- The output-file effects of `main` (lines 217-269) as a function of the
discovered files and their per-file outcomes. -/
def main_model (files : List (List Char × Except Unit (Nat × Nat × Nat × Nat))) :
    MainResult :=
  if files.isEmpty then { txt := none, htmlWritten := false, completed := false }
  else main_loop files [header_line]

theorem ite_gt_eq_max (a b : Nat) : (if a > b then a else b) = max b a := by
  split <;> omega

theorem loop_cons_other {c : Char} (h : ¬(c = 'A' ∨ c = 'T'))
    (rest : List Char) (longest current : Nat) (prev : Option Char) :
    longest_poly_run_loop (c :: rest) longest current prev =
      longest_poly_run_loop rest longest 0 none := by
  simp only [longest_poly_run_loop]
  rw [if_neg h]

theorem loop_cons_same {c : Char} (hAT : c = 'A' ∨ c = 'T') {prev : Option Char}
    (hp : prev = some c) (rest : List Char) (longest current : Nat) :
    longest_poly_run_loop (c :: rest) longest current prev =
      longest_poly_run_loop rest (max longest (current + 1)) (current + 1) prev := by
  simp only [longest_poly_run_loop]
  rw [if_pos hAT, if_pos hp, ite_gt_eq_max]

theorem loop_cons_new {c : Char} (hAT : c = 'A' ∨ c = 'T') {prev : Option Char}
    (hp : ¬ prev = some c) (rest : List Char) (longest current : Nat) :
    longest_poly_run_loop (c :: rest) longest current prev =
      longest_poly_run_loop rest (max longest 1) 1 (some c) := by
  simp only [longest_poly_run_loop]
  rw [if_pos hAT, if_neg hp, ite_gt_eq_max]

theorem headRun_cons (c x : Char) (l : List Char) :
    headRun c (x :: l) = if x = c then headRun c l + 1 else 0 := rfl

theorem maxRun_cons_pos {c : Char} (hAT : c = 'A' ∨ c = 'T') (l : List Char) :
    maxRun (c :: l) = max (headRun c l + 1) (maxRun l) := by
  simp only [maxRun]
  rw [if_pos hAT]

theorem maxRun_cons_neg {c : Char} (h : ¬(c = 'A' ∨ c = 'T')) (l : List Char) :
    maxRun (c :: l) = maxRun l := by
  simp only [maxRun]
  rw [if_neg h]

theorem loop_max (l : List Char) :
    ∀ longest current prev, longest_poly_run_loop l longest current prev =
      max longest (longest_poly_run_loop l 0 current prev) := by
  induction l with
  | nil =>
    intro longest current prev
    simp [longest_poly_run_loop]
  | cons c l ih =>
    intro longest current prev
    by_cases hAT : c = 'A' ∨ c = 'T'
    · by_cases hp : prev = some c
      · rw [loop_cons_same hAT hp, loop_cons_same hAT hp,
          ih (max longest (current + 1)), ih (max 0 (current + 1))]
        omega
      · rw [loop_cons_new hAT hp, loop_cons_new hAT hp,
          ih (max longest 1), ih (max 0 1)]
        omega
    · rw [loop_cons_other hAT, loop_cons_other hAT, ih longest, ih 0]

theorem loop_spec (l : List Char) :
    (∀ current p, (p = 'A' ∨ p = 'T') →
      longest_poly_run_loop l 0 current (some p) =
        max (if headRun p l = 0 then 0 else current + headRun p l) (maxRun l))
    ∧ longest_poly_run_loop l 0 0 none = maxRun l := by
  induction l with
  | nil =>
    exact ⟨fun current p _ => by simp [longest_poly_run_loop, headRun, maxRun], rfl⟩
  | cons c l ih =>
    refine ⟨?_, ?_⟩
    · intro current p hp
      by_cases hAT : c = 'A' ∨ c = 'T'
      · by_cases hpc : c = p
        · subst hpc
          rw [loop_cons_same hAT rfl, Nat.zero_max, loop_max, ih.1 (current + 1) c hAT,
            headRun_cons, if_pos rfl, maxRun_cons_pos hAT,
            if_neg (Nat.succ_ne_zero (headRun c l))]
          by_cases h0 : headRun c l = 0
          · rw [h0, if_pos rfl]
            omega
          · rw [if_neg h0]
            omega
        · have hp' : ¬ (some p = some c) := by
            intro h
            exact hpc (Option.some.inj h).symm
          rw [loop_cons_new hAT hp', Nat.zero_max, loop_max, ih.1 1 c hAT,
            headRun_cons, if_neg hpc, if_pos rfl, maxRun_cons_pos hAT]
          by_cases h0 : headRun c l = 0
          · rw [h0, if_pos rfl]
            omega
          · rw [if_neg h0]
            omega
      · have hcp : ¬ (c = p) := by
          rintro rfl
          exact hAT hp
        rw [loop_cons_other hAT, ih.2, headRun_cons, if_neg hcp, if_pos rfl,
          maxRun_cons_neg hAT]
        omega
    · by_cases hAT : c = 'A' ∨ c = 'T'
      · have hp' : ¬ ((none : Option Char) = some c) := by simp
        rw [loop_cons_new hAT hp', Nat.zero_max, loop_max, ih.1 1 c hAT,
          maxRun_cons_pos hAT]
        by_cases h0 : headRun c l = 0
        · rw [h0, if_pos rfl]
          omega
        · rw [if_neg h0]
          omega
      · rw [loop_cons_other hAT, ih.2, maxRun_cons_neg hAT]

theorem longestPolyRunList_eq_maxRun (l : List Char) :
    longestPolyRunList l = maxRun (l.map Char.toUpper) :=
  (loop_spec (l.map Char.toUpper)).2

theorem headRun_leading (c : Char) (l : List Char) :
    List.replicate (headRun c l) c <+: l := by
  induction l with
  | nil => simp [headRun]
  | cons x l ih =>
    by_cases hx : x = c
    · subst hx
      rw [headRun_cons, if_pos rfl, List.replicate_succ]
      exact List.cons_prefix_cons.2 ⟨rfl, ih⟩
    · rw [headRun_cons, if_neg hx]
      simp

theorem le_headRun_of_replicate_leading (c : Char) (l : List Char) (k : Nat)
    (h : List.replicate k c <+: l) : k ≤ headRun c l := by
  induction l generalizing k with
  | nil =>
    have hlen := h.length_le
    simp only [List.length_replicate, List.length_nil, Nat.le_zero] at hlen
    omega
  | cons x l ih =>
    cases k with
    | zero => exact Nat.zero_le _
    | succ k =>
      rw [List.replicate_succ, List.cons_prefix_cons] at h
      obtain ⟨rfl, h2⟩ := h
      rw [headRun_cons, if_pos rfl]
      exact Nat.succ_le_succ (ih k h2)

theorem maxRun_exists (l : List Char) :
    ∃ t, t <:+: l ∧ monoRun t ∧ t.length = maxRun l := by
  induction l with
  | nil => exact ⟨[], List.infix_refl [], ⟨'A', Or.inl rfl, rfl⟩, rfl⟩
  | cons c l ih =>
    obtain ⟨t, hinf, hm, hlen⟩ := ih
    by_cases hAT : c = 'A' ∨ c = 'T'
    · rcases Nat.le_total (headRun c l + 1) (maxRun l) with hle | hle
      · refine ⟨t, hinf.trans (List.infix_cons (List.infix_refl l)), hm, ?_⟩
        rw [maxRun_cons_pos hAT, Nat.max_eq_right hle, hlen]
      · refine ⟨c :: List.replicate (headRun c l) c, ?_, ?_, ?_⟩
        · exact ((List.cons_prefix_cons).2 ⟨rfl, headRun_leading c l⟩).isInfix
        · exact ⟨c, hAT, by simp [List.replicate_succ]⟩
        · rw [maxRun_cons_pos hAT, Nat.max_eq_left hle]
          simp
    · refine ⟨t, hinf.trans (List.infix_cons (List.infix_refl l)), hm, ?_⟩
      rw [maxRun_cons_neg hAT, hlen]

theorem maxRun_le_cons (c : Char) (l : List Char) : maxRun l ≤ maxRun (c :: l) := by
  by_cases hAT : c = 'A' ∨ c = 'T'
  · rw [maxRun_cons_pos hAT]
    exact Nat.le_max_right _ _
  · rw [maxRun_cons_neg hAT]

theorem monoRun_infix_le (l t : List Char) (hinf : t <:+: l) (hm : monoRun t) :
    t.length ≤ maxRun l := by
  induction l generalizing t with
  | nil =>
    have ht : t = [] := List.sublist_nil.mp hinf.sublist
    subst ht
    exact Nat.zero_le _
  | cons c l ih =>
    rcases List.infix_cons_iff.1 hinf with hpre | hinf'
    · cases t with
      | nil => exact Nat.zero_le _
      | cons x t' =>
        obtain ⟨hxc, hpre'⟩ := List.cons_prefix_cons.1 hpre
        obtain ⟨c0, hc0, hrep⟩ := hm
        rw [List.length_cons, List.replicate_succ] at hrep
        obtain ⟨hcc0, hrep'⟩ := List.cons.inj hrep
        have hk : t'.length ≤ headRun x l := by
          apply le_headRun_of_replicate_leading x l t'.length
          rw [← hcc0] at hrep'
          exact hrep' ▸ hpre'
        have hxAT : x = 'A' ∨ x = 'T' := by
          rw [hcc0]
          exact hc0
        rw [← hxc, maxRun_cons_pos hxAT, List.length_cons]
        omega
    · exact (ih t hinf' hm).trans (maxRun_le_cons c l)

theorem maxRun_le_length (l : List Char) : maxRun l ≤ l.length := by
  induction l with
  | nil => exact Nat.le_refl 0
  | cons c l ih =>
    have hh : headRun c l ≤ l.length := by
      have := (headRun_leading c l).length_le
      simpa using this
    by_cases hAT : c = 'A' ∨ c = 'T'
    · rw [maxRun_cons_pos hAT, List.length_cons]
      omega
    · rw [maxRun_cons_neg hAT, List.length_cons]
      omega

theorem maxRun_eq_zero_iff (l : List Char) :
    maxRun l = 0 ↔ ∀ c ∈ l, ¬(c = 'A' ∨ c = 'T') := by
  induction l with
  | nil => simp [maxRun]
  | cons c l ih =>
    by_cases hAT : c = 'A' ∨ c = 'T'
    · rw [maxRun_cons_pos hAT]
      constructor
      · intro h
        omega
      · intro h
        exact absurd hAT (h c (List.mem_cons_self c l))
    · rw [maxRun_cons_neg hAT, ih]
      constructor
      · intro h x hx
        rcases List.mem_cons.1 hx with rfl | hx'
        · exact hAT
        · exact h x hx'
      · intro h x hx
        exact h x (List.mem_cons_of_mem c hx)

/-! ### Case normalization: which characters count as A/T after `.upper()` -/

theorem toUpper_mem_AT_iff (c : Char) :
    (Char.toUpper c = 'A' ∨ Char.toUpper c = 'T') ↔
      (c = 'A' ∨ c = 'a' ∨ c = 'T' ∨ c = 't') := by
  have hdef : Char.toUpper c =
      if c.toNat ≥ 97 ∧ c.toNat ≤ 122 then Char.ofNat (c.toNat - 32) else c := rfl
  by_cases h : c.toNat ≥ 97 ∧ c.toNat ≤ 122
  · obtain ⟨h1, h2⟩ := h
    obtain ⟨n, hn⟩ : ∃ n, c.toNat = n := ⟨_, rfl⟩
    have hc : c = Char.ofNat n := by
      rw [← hn]
      exact (Char.ofNat_toNat c).symm
    rw [hn] at h1 h2
    subst hc
    interval_cases n <;> decide
  · have hu : Char.toUpper c = c := by
      rw [hdef, if_neg h]
    have ha : c ≠ 'a' := by
      rintro rfl
      exact h (by decide)
    have ht : c ≠ 't' := by
      rintro rfl
      exact h (by decide)
    rw [hu]
    constructor
    · rintro (rfl | rfl)
      · exact Or.inl rfl
      · exact Or.inr (Or.inr (Or.inl rfl))
    · rintro (rfl | rfl | rfl | rfl)
      · exact Or.inl rfl
      · exact absurd rfl ha
      · exact Or.inr rfl
      · exact absurd rfl ht

theorem maxRun_map_toUpper_eq_zero_iff (l : List Char) :
    maxRun (l.map Char.toUpper) = 0 ↔
      ∀ c ∈ l, c ≠ 'A' ∧ c ≠ 'a' ∧ c ≠ 'T' ∧ c ≠ 't' := by
  rw [maxRun_eq_zero_iff]
  constructor
  · intro h c hc
    have := h (Char.toUpper c) (List.mem_map_of_mem Char.toUpper hc)
    have hnot := fun habs => this ((toUpper_mem_AT_iff c).2 habs)
    refine ⟨?_, ?_, ?_, ?_⟩
    · intro hc1
      exact hnot (Or.inl hc1)
    · intro hc1
      exact hnot (Or.inr (Or.inl hc1))
    · intro hc1
      exact hnot (Or.inr (Or.inr (Or.inl hc1)))
    · intro hc1
      exact hnot (Or.inr (Or.inr (Or.inr hc1)))
  · intro h x hx
    obtain ⟨c, hc, rfl⟩ := List.mem_map.1 hx
    obtain ⟨h1, h2, h3, h4⟩ := h c hc
    intro habs
    rcases (toUpper_mem_AT_iff c).1 habs with rfl | rfl | rfl | rfl
    · exact h1 rfl
    · exact h2 rfl
    · exact h3 rfl
    · exact h4 rfl

/-! ## Claims about the Run-Length Scanner -/

/-- C1: `longest_poly_run(s)` is the maximum length of a contiguous substring
of `s` (after case normalization) consisting of repeated occurrences of one
single base, A or T; any other character breaks a run; `"ATATAT"` yields 1,
not 6; `longest_poly_run("AAAAAAAAAA") = 10`,
`longest_poly_run("AAAATTTTAAAA") = 4`, and
`longest_poly_run("NNNNAAAAAAAAAAANNNN") = 11`. -/
theorem claim_C1 :
    (∀ s : String,
      (∃ t, t <:+: s.data.map Char.toUpper ∧ monoRun t ∧
        t.length = longest_poly_run s) ∧
      (∀ t, t <:+: s.data.map Char.toUpper → monoRun t →
        t.length ≤ longest_poly_run s)) ∧
    longest_poly_run "ATATAT" = 1 ∧
    longest_poly_run "AAAAAAAAAA" = 10 ∧
    longest_poly_run "AAAATTTTAAAA" = 4 ∧
    longest_poly_run "NNNNAAAAAAAAAAANNNN" = 11 := by
  refine ⟨fun s => ?_, by decide, by decide, by decide, by decide⟩
  rw [longest_poly_run, longestPolyRunList_eq_maxRun]
  exact ⟨maxRun_exists _, fun t ht hm => monoRun_infix_le _ t ht hm⟩

/-- Witness for C1: instantiating the maximality part at a concrete string
and concrete monorun. -/
theorem claim_C1_witness : (3 : Nat) ≤ longest_poly_run "AAATT" :=
  (claim_C1.1 "AAATT").2 (List.replicate 3 'A') (by decide)
    ⟨'A', Or.inl rfl, by decide⟩

/-- C5: `longest_poly_run(s) ≥ 0` always, and it is `0` iff `s` contains no
occurrence of A or T in either case. -/
theorem claim_C5 (s : String) :
    0 ≤ longest_poly_run s ∧
      (longest_poly_run s = 0 ↔
        ∀ c ∈ s.data, c ≠ 'A' ∧ c ≠ 'a' ∧ c ≠ 'T' ∧ c ≠ 't') := by
  refine ⟨Nat.zero_le _, ?_⟩
  rw [longest_poly_run, longestPolyRunList_eq_maxRun]
  exact maxRun_map_toUpper_eq_zero_iff s.data

/-- Witness for C5: an all-G string yields 0, and the empty string yields 0. -/
theorem claim_C5_witness :
    longest_poly_run "GGCGC" = 0 ∧ longest_poly_run "" = 0 :=
  ⟨(claim_C5 "GGCGC").2.mpr (by decide), (claim_C5 "").2.mpr (by decide)⟩

/-- C9: the reported longest run never exceeds the sequence length. -/
theorem claim_C9 (s : String) : longest_poly_run s ≤ s.length := by
  rw [longest_poly_run, longestPolyRunList_eq_maxRun]
  calc maxRun (s.data.map Char.toUpper) ≤ (s.data.map Char.toUpper).length :=
        maxRun_le_length _
    _ = s.length := by rw [List.length_map]; rfl

theorem count_loop_break (rest : List (List Char)) (t a b c : Nat) :
    count_loop ([] :: rest) t a b c = (t, a, b, c) := by
  simp [count_loop]

theorem count_loop_skip {header : List Char} (hh : header ≠ []) {rest : List (List Char)}
    (hs : pystrip ((rest.head?).getD []) = []) (t a b c : Nat) :
    count_loop (header :: rest) t a b c = count_loop (rest.drop 3) t a b c := by
  simp [count_loop, hh, hs]

theorem count_loop_count {header : List Char} (hh : header ≠ []) {rest : List (List Char)}
    (hs : pystrip ((rest.head?).getD []) ≠ []) (t a b c : Nat) :
    count_loop (header :: rest) t a b c =
      count_loop (rest.drop 3) (t + 1)
        (if 10 ≤ longestPolyRunList (pystrip ((rest.head?).getD [])) then a + 1 else a)
        (if 15 ≤ longestPolyRunList (pystrip ((rest.head?).getD [])) then b + 1 else b)
        (if 20 ≤ longestPolyRunList (pystrip ((rest.head?).getD [])) then c + 1 else c) := by
  simp [count_loop, hh, hs]

theorem recordSeqs_cons {header : List Char} (hh : header ≠ []) (rest : List (List Char)) :
    recordSeqs (header :: rest) = ((rest.head?).getD []) :: recordSeqs (rest.drop 3) := by
  simp [recordSeqs, hh]

theorem count_loop_closed (n : Nat) :
    ∀ lines : List (List Char), lines.length ≤ n → ∀ t a b c : Nat,
      count_loop lines t a b c =
        (t + (readSeqs lines).length, a + countAtLeast 10 lines,
         b + countAtLeast 15 lines, c + countAtLeast 20 lines) := by
  induction n with
  | zero =>
    intro lines hl t a b c
    have hnil : lines = [] := List.length_eq_zero.mp (Nat.le_zero.mp hl)
    subst hnil
    simp [count_loop, readSeqs, recordSeqs, countAtLeast]
  | succ n ih =>
    intro lines hl t a b c
    cases lines with
    | nil => simp [count_loop, readSeqs, recordSeqs, countAtLeast]
    | cons header rest =>
      by_cases hh : header = []
      · subst hh
        simp [count_loop_break, readSeqs, recordSeqs, countAtLeast]
      · have hlen : (rest.drop 3).length ≤ n := by
          rw [List.length_cons] at hl
          rw [List.length_drop]
          omega
        by_cases hs : pystrip ((rest.head?).getD []) = []
        · rw [count_loop_skip hh hs, ih _ hlen]
          have hread : readSeqs (header :: rest) = readSeqs (rest.drop 3) := by
            simp [readSeqs, recordSeqs_cons hh, List.filter_cons, hs]
          rw [hread]
          simp only [countAtLeast, hread]
        · rw [count_loop_count hh hs, ih _ hlen]
          have hread : readSeqs (header :: rest) =
              pystrip ((rest.head?).getD []) :: readSeqs (rest.drop 3) := by
            simp [readSeqs, recordSeqs_cons hh, List.filter_cons, hs]
          simp only [countAtLeast, hread, List.filter_cons, decide_eq_true_eq,
            List.length_cons]
          by_cases h10 : 10 ≤ longestPolyRunList (pystrip ((rest.head?).getD [])) <;>
            by_cases h15 : 15 ≤ longestPolyRunList (pystrip ((rest.head?).getD [])) <;>
              by_cases h20 : 20 ≤ longestPolyRunList (pystrip ((rest.head?).getD [])) <;>
                simp [h10, h15, h20, Prod.mk.injEq] <;>
                  omega

theorem count_poly_runs_closed (lines : List (List Char)) :
    count_poly_runs lines =
      ((readSeqs lines).length, countAtLeast 10 lines,
       countAtLeast 15 lines, countAtLeast 20 lines) := by
  rw [count_poly_runs, count_loop_closed lines.length lines (Nat.le_refl _)]
  simp

theorem countAtLeast_le_total (k : Nat) (lines : List (List Char)) :
    countAtLeast k lines ≤ (readSeqs lines).length :=
  List.length_filter_le _ _

theorem countAtLeast_anti (lines : List (List Char)) {j k : Nat} (h : j ≤ k) :
    countAtLeast k lines ≤ countAtLeast j lines := by
  apply List.Sublist.length_le
  apply List.monotone_filter_right
  intro s hs
  rw [decide_eq_true_eq] at hs ⊢
  omega

/-! ## Claims about the Per-File Aggregator and Record Reader -/

/-- C2: per file, `total` counts exactly the records with a non-blank
sequence line, and `poly10`/`poly15`/`poly20` count exactly those whose
longest A/T run reaches 10/15/20 respectively — the three threshold checks
are independent, so a read with a run of 22 increments all three. -/
theorem claim_C2 :
    (∀ lines : List (List Char),
      count_poly_runs lines =
        ((readSeqs lines).length, countAtLeast 10 lines,
         countAtLeast 15 lines, countAtLeast 20 lines)) ∧
    count_poly_runs
      [['@', 'r'],
       ['A','A','A','A','A','A','A','A','A','A','A','A','A','A','A','A','A','A','A','A','A','A'],
       ['+'], ['q']]
      = (1, 1, 1, 1) := by
  refine ⟨count_poly_runs_closed, ?_⟩
  have h1 : pystrip
      ['A','A','A','A','A','A','A','A','A','A','A','A','A','A','A','A','A','A','A','A','A','A'] =
      ['A','A','A','A','A','A','A','A','A','A','A','A','A','A','A','A','A','A','A','A','A','A'] := by
    decide
  have h2 : longestPolyRunList
      ['A','A','A','A','A','A','A','A','A','A','A','A','A','A','A','A','A','A','A','A','A','A'] =
      22 := by decide
  simp [count_poly_runs, count_loop, h1, h2]

/-- C3: the four counters always satisfy
`poly20 ≤ poly15 ≤ poly10 ≤ total`, both as returned by `count_poly_runs`
and starting from any intermediate accumulator state that satisfies the
ordering (so the ordering is preserved by each record processed). -/
theorem claim_C3 :
    (∀ (lines : List (List Char)) (t a b c : Nat),
      c ≤ b → b ≤ a → a ≤ t →
      (count_loop lines t a b c).2.2.2 ≤ (count_loop lines t a b c).2.2.1 ∧
      (count_loop lines t a b c).2.2.1 ≤ (count_loop lines t a b c).2.1 ∧
      (count_loop lines t a b c).2.1 ≤ (count_loop lines t a b c).1) ∧
    (∀ lines : List (List Char),
      (count_poly_runs lines).2.2.2 ≤ (count_poly_runs lines).2.2.1 ∧
      (count_poly_runs lines).2.2.1 ≤ (count_poly_runs lines).2.1 ∧
      (count_poly_runs lines).2.1 ≤ (count_poly_runs lines).1) := by
  have main : ∀ (lines : List (List Char)) (t a b c : Nat),
      c ≤ b → b ≤ a → a ≤ t →
      (count_loop lines t a b c).2.2.2 ≤ (count_loop lines t a b c).2.2.1 ∧
      (count_loop lines t a b c).2.2.1 ≤ (count_loop lines t a b c).2.1 ∧
      (count_loop lines t a b c).2.1 ≤ (count_loop lines t a b c).1 := by
    intro lines t a b c h1 h2 h3
    rw [count_loop_closed lines.length lines (Nat.le_refl _)]
    have k1 := countAtLeast_anti lines (show (10 : Nat) ≤ 15 by omega)
    have k2 := countAtLeast_anti lines (show (15 : Nat) ≤ 20 by omega)
    have k3 := countAtLeast_le_total 10 lines
    dsimp only
    omega
  exact ⟨main, fun lines =>
    main lines 0 0 0 0 (Nat.le_refl 0) (Nat.le_refl 0) (Nat.le_refl 0)⟩

/-- Witness for C3: the preservation statement applied to a concrete stream
and a concrete valid accumulator state. -/
theorem claim_C3_witness :
    (count_loop [['@'], ['A', 'T'], ['+'], ['I', 'I']] 3 2 1 0).2.2.2 ≤
      (count_loop [['@'], ['A', 'T'], ['+'], ['I', 'I']] 3 2 1 0).2.2.1 ∧
    (count_loop [['@'], ['A', 'T'], ['+'], ['I', 'I']] 3 2 1 0).2.2.1 ≤
      (count_loop [['@'], ['A', 'T'], ['+'], ['I', 'I']] 3 2 1 0).2.1 ∧
    (count_loop [['@'], ['A', 'T'], ['+'], ['I', 'I']] 3 2 1 0).2.1 ≤
      (count_loop [['@'], ['A', 'T'], ['+'], ['I', 'I']] 3 2 1 0).1 :=
  claim_C3.1 [['@'], ['A', 'T'], ['+'], ['I', 'I']] 3 2 1 0
    (by decide) (by decide) (by decide)

/-- C6: the record reader consumes exactly 4 lines per iteration regardless
of content, stops exactly when a header line cannot be read, treats absent
lines at a truncated stream end as empty, and a record whose sequence line
is blank after trimming contributes to no counter while its 4 lines are
still consumed. -/
theorem claim_C6 :
    (∀ t a b c : Nat, count_loop [] t a b c = (t, a, b, c)) ∧
    (∀ (rest : List (List Char)) (t a b c : Nat),
      count_loop ([] :: rest) t a b c = (t, a, b, c)) ∧
    (∀ (header : List Char) (rest : List (List Char)) (t a b c : Nat),
      header ≠ [] →
      count_loop (header :: rest) t a b c =
        if pystrip (((header :: rest)[1]?).getD []) = [] then
          count_loop ((header :: rest).drop 4) t a b c
        else
          count_loop ((header :: rest).drop 4) (t + 1)
            (if 10 ≤ longestPolyRunList (pystrip (((header :: rest)[1]?).getD []))
              then a + 1 else a)
            (if 15 ≤ longestPolyRunList (pystrip (((header :: rest)[1]?).getD []))
              then b + 1 else b)
            (if 20 ≤ longestPolyRunList (pystrip (((header :: rest)[1]?).getD []))
              then c + 1 else c)) ∧
    count_poly_runs [['@', 'r', '\n']] = (0, 0, 0, 0) ∧
    count_poly_runs [['@', '\n'], ['A','A','A','A','A','A','A','A','A','A','A','A']]
      = (1, 1, 0, 0) := by
  refine ⟨fun t a b c => by simp [count_loop], count_loop_break, ?_, ?_, ?_⟩
  · intro header rest t a b c hh
    have h1 : ((header :: rest)[1]?).getD [] = (rest.head?).getD [] := by
      cases rest <;> simp
    have h4 : (header :: rest).drop 4 = rest.drop 3 := rfl
    rw [h1, h4]
    by_cases hs : pystrip ((rest.head?).getD []) = []
    · rw [if_pos hs]
      exact count_loop_skip hh hs t a b c
    · rw [if_neg hs]
      exact count_loop_count hh hs t a b c
  · have hp : pystrip ([] : List Char) = [] := by decide
    simp [count_poly_runs, count_loop, hp]
  · have h1 : pystrip ['A','A','A','A','A','A','A','A','A','A','A','A'] =
        ['A','A','A','A','A','A','A','A','A','A','A','A'] := by decide
    have h2 : longestPolyRunList ['A','A','A','A','A','A','A','A','A','A','A','A'] = 12 := by
      decide
    simp [count_poly_runs, count_loop, h1, h2]

/-- Witness for C6: the 4-line consumption step applied to a concrete
record with a blank sequence line. -/
theorem claim_C6_witness :
    count_loop [['@'], [' '], ['+'], ['J']] 5 4 3 2 =
      if pystrip (((([['@'], [' '], ['+'], ['J']] : List (List Char)))[1]?).getD [])
          = [] then
        count_loop (([['@'], [' '], ['+'], ['J']] : List (List Char)).drop 4) 5 4 3 2
      else
        count_loop (([['@'], [' '], ['+'], ['J']] : List (List Char)).drop 4) (5 + 1)
          (if 10 ≤ longestPolyRunList
              (pystrip (((([['@'], [' '], ['+'], ['J']] : List (List Char)))[1]?).getD []))
            then 4 + 1 else 4)
          (if 15 ≤ longestPolyRunList
              (pystrip (((([['@'], [' '], ['+'], ['J']] : List (List Char)))[1]?).getD []))
            then 3 + 1 else 3)
          (if 20 ≤ longestPolyRunList
              (pystrip (((([['@'], [' '], ['+'], ['J']] : List (List Char)))[1]?).getD []))
            then 2 + 1 else 2) :=
  claim_C6.2.2.1 ['@'] [[' '], ['+'], ['J']] 5 4 3 2 (by decide)

theorem rheDiv_close (a b : Nat) (hb : 0 < b) :
    |(rheDiv a b : ℚ) - a / b| ≤ 1 / 2 := by
  have hb' : (0 : ℚ) < b := by exact_mod_cast hb
  have hbne : (b : ℚ) ≠ 0 := ne_of_gt hb'
  have hdm : b * (a / b) + a % b = a := Nat.div_add_mod a b
  have hcast : (a : ℚ) = b * ((a / b : Nat) : ℚ) + ((a % b : Nat) : ℚ) := by
    exact_mod_cast hdm.symm
  have hv : (a : ℚ) / b = ((a / b : Nat) : ℚ) + ((a % b : Nat) : ℚ) / b := by
    push_cast at hcast
    field_simp
    linarith
  have hrlt : ((a % b : Nat) : ℚ) < b := by exact_mod_cast Nat.mod_lt _ hb
  have hrpos : (0 : ℚ) ≤ ((a % b : Nat) : ℚ) := by positivity
  rw [rheDiv]
  by_cases h1 : 2 * (a % b) < b
  · rw [if_pos h1]
    have h1' : 2 * ((a % b : Nat) : ℚ) < b := by exact_mod_cast h1
    have hfr : ((a % b : Nat) : ℚ) / b ≤ 1 / 2 := by
      rw [div_le_div_iff hb' (by norm_num)]
      linarith
    have hfr0 : (0 : ℚ) ≤ ((a % b : Nat) : ℚ) / b := by positivity
    rw [hv, abs_le]
    constructor <;> linarith
  · rw [if_neg h1]
    have h1' : (b : ℚ) ≤ 2 * ((a % b : Nat) : ℚ) := by
      have := Nat.le_of_not_lt h1
      exact_mod_cast this
    have hfr : 1 / 2 ≤ ((a % b : Nat) : ℚ) / b := by
      rw [div_le_div_iff (by norm_num) hb']
      linarith
    have hfr1 : ((a % b : Nat) : ℚ) / b < 1 := by
      rw [div_lt_one hb']
      exact hrlt
    by_cases h2 : b < 2 * (a % b)
    · rw [if_pos h2]
      rw [hv, abs_le]
      push_cast
      constructor <;> linarith
    · rw [if_neg h2]
      have h2' : 2 * ((a % b : Nat) : ℚ) ≤ b := by
        have := Nat.le_of_not_lt h2
        exact_mod_cast this
      have hfr2 : ((a % b : Nat) : ℚ) / b ≤ 1 / 2 := by
        rw [div_le_div_iff hb' (by norm_num)]
        linarith
      by_cases h3 : a / b % 2 = 0
      · rw [if_pos h3, hv, abs_le]
        constructor <;> linarith
      · rw [if_neg h3, hv, abs_le]
        push_cast
        constructor <;> linarith

theorem log2F_eq (fuel : Nat) : ∀ n, n ≤ fuel → log2F fuel n = Nat.log2 n := by
  induction fuel with
  | zero =>
    intro n hn
    have h0 : n = 0 := by omega
    subst h0
    show 0 = Nat.log2 0
    unfold Nat.log2
    rfl
  | succ fuel ih =>
    intro n hn
    show (if 2 ≤ n then log2F fuel (n / 2) + 1 else 0) = Nat.log2 n
    by_cases h2 : 2 ≤ n
    · rw [if_pos h2, ih (n / 2) (by omega)]
      conv_rhs => unfold Nat.log2
      rw [if_pos h2]
    · rw [if_neg h2]
      conv_rhs => unfold Nat.log2
      rw [if_neg h2]

theorem natLog2_eq (n : Nat) : natLog2 n = Nat.log2 n :=
  log2F_eq n n (Nat.le_refl n)

theorem zpow_neg_natCast_two (k : Nat) : (2 : ℚ) ^ (-(k : ℤ)) = 1 / 2 ^ k := by
  rw [zpow_neg, zpow_natCast, one_div]

theorem ratILog2_le (n d : Nat) (hn : 0 < n) (hd : 0 < d) :
    (2 : ℚ) ^ ratILog2 n d ≤ (n : ℚ) / d := by
  have hd' : (0 : ℚ) < d := by exact_mod_cast hd
  rw [ratILog2]
  by_cases hdn : d ≤ n
  · rw [if_pos hdn, natLog2_eq]
    have hnd0 : n / d ≠ 0 := by
      have : 1 ≤ n / d := (Nat.one_le_div_iff hd).mpr hdn
      omega
    have h1 : 2 ^ Nat.log2 (n / d) ≤ n / d := Nat.log2_self_le hnd0
    calc (2 : ℚ) ^ (Nat.log2 (n / d) : ℤ)
        = ((2 ^ Nat.log2 (n / d) : Nat) : ℚ) := by
          rw [zpow_natCast]
          push_cast
          ring
      _ ≤ ((n / d : Nat) : ℚ) := by exact_mod_cast h1
      _ ≤ (n : ℚ) / d := Nat.cast_div_le
  · rw [if_neg hdn, natLog2_eq]
    have hnd : n < d := Nat.lt_of_not_le hdn
    have hdn0 : d / n ≠ 0 := by
      have : 1 ≤ d / n := (Nat.one_le_div_iff hn).mpr (Nat.le_of_lt hnd)
      omega
    have hk2 : d / n < 2 ^ (Nat.log2 (d / n) + 1) := Nat.lt_log2_self
    have hB : d < 2 ^ (Nat.log2 (d / n) + 1) * n :=
      (Nat.div_lt_iff_lt_mul hn).mp hk2
    by_cases hc : d ≤ 2 ^ Nat.log2 (d / n) * n
    · rw [if_pos hc]
      rw [zpow_neg_natCast_two, div_le_div_iff (by positivity) hd']
      have hc' : (d : ℚ) ≤ 2 ^ Nat.log2 (d / n) * n := by exact_mod_cast hc
      linarith
    · rw [if_neg hc]
      rw [show -(Nat.log2 (d / n) : ℤ) - 1 = -((Nat.log2 (d / n) + 1 : Nat) : ℤ) by
        push_cast
        ring]
      rw [zpow_neg_natCast_two, div_le_div_iff (by positivity) hd']
      have hB' : (d : ℚ) < 2 ^ (Nat.log2 (d / n) + 1) * n := by exact_mod_cast hB
      linarith

theorem ratILog2_lt (n d : Nat) (hn : 0 < n) (hd : 0 < d) :
    (n : ℚ) / d < (2 : ℚ) ^ (ratILog2 n d + 1) := by
  have hd' : (0 : ℚ) < d := by exact_mod_cast hd
  rw [ratILog2]
  by_cases hdn : d ≤ n
  · rw [if_pos hdn, natLog2_eq]
    have hfloor : n < d * (n / d + 1) := by
      have h1 := Nat.div_add_mod n d
      have h2 := Nat.mod_lt n hd
      calc n = d * (n / d) + n % d := h1.symm
        _ < d * (n / d) + d := by omega
        _ = d * (n / d + 1) := by ring
    have hk2 : n / d < 2 ^ (Nat.log2 (n / d) + 1) := Nat.lt_log2_self
    rw [show ((Nat.log2 (n / d) : ℤ) + 1) = ((Nat.log2 (n / d) + 1 : Nat) : ℤ) by
      push_cast
      ring]
    rw [zpow_natCast, div_lt_iff hd']
    have h3 : (n : ℚ) < d * (((n / d : Nat) : ℚ) + 1) := by exact_mod_cast hfloor
    have h4 : ((n / d : Nat) : ℚ) + 1 ≤ (2 : ℚ) ^ (Nat.log2 (n / d) + 1) := by
      exact_mod_cast hk2
    calc (n : ℚ) < d * (((n / d : Nat) : ℚ) + 1) := h3
      _ ≤ d * (2 : ℚ) ^ (Nat.log2 (n / d) + 1) :=
          mul_le_mul_of_nonneg_left h4 (le_of_lt hd')
      _ = (2 : ℚ) ^ (Nat.log2 (n / d) + 1) * d := mul_comm _ _
  · rw [if_neg hdn, natLog2_eq]
    have hnd : n < d := Nat.lt_of_not_le hdn
    have hdn0 : d / n ≠ 0 := by
      have : 1 ≤ d / n := (Nat.one_le_div_iff hn).mpr (Nat.le_of_lt hnd)
      omega
    have hk1 : 2 ^ Nat.log2 (d / n) ≤ d / n := Nat.log2_self_le hdn0
    have hA : 2 ^ Nat.log2 (d / n) * n ≤ d := by
      calc 2 ^ Nat.log2 (d / n) * n ≤ d / n * n := Nat.mul_le_mul_right n hk1
        _ ≤ d := Nat.div_mul_le_self d n
    by_cases hc : d ≤ 2 ^ Nat.log2 (d / n) * n
    · rw [if_pos hc]
      rw [show (-(Nat.log2 (d / n) : ℤ) + 1) = (1 : ℤ) - (Nat.log2 (d / n) : ℤ) by ring,
        sub_eq_add_neg, zpow_add₀ (by norm_num : (2 : ℚ) ≠ 0), zpow_one,
        zpow_neg_natCast_two]
      rw [div_lt_iff hd']
      have hA' : (2 : ℚ) ^ Nat.log2 (d / n) * n ≤ d := by exact_mod_cast hA
      rw [show (2 : ℚ) * (1 / 2 ^ Nat.log2 (d / n)) * d
          = 2 * d / 2 ^ Nat.log2 (d / n) by ring]
      rw [lt_div_iff (by positivity)]
      linarith
    · rw [if_neg hc]
      rw [show (-(Nat.log2 (d / n) : ℤ) - 1 + 1) = -(Nat.log2 (d / n) : ℤ) by ring,
        zpow_neg_natCast_two]
      have hc' : 2 ^ Nat.log2 (d / n) * n < d := Nat.lt_of_not_le hc
      have hc'' : (2 : ℚ) ^ Nat.log2 (d / n) * n < d := by exact_mod_cast hc'
      rw [div_lt_div_iff hd' (by positivity)]
      linarith

theorem ratILog2_le_six (n d : Nat) (hd : 0 < d) (hn : n ≤ 100 * d) :
    ratILog2 n d ≤ 6 := by
  rw [ratILog2]
  by_cases hdn : d ≤ n
  · rw [if_pos hdn, natLog2_eq]
    have hnd : n / d < 2 ^ 7 := by
      have h1 : n / d ≤ 100 * d / d := Nat.div_le_div_right hn
      have h2 : 100 * d / d = 100 := Nat.mul_div_cancel 100 hd
      omega
    rcases Nat.eq_zero_or_pos (n / d) with h0 | hpos
    · rw [h0]
      have hz : Nat.log2 0 = 0 := by
        unfold Nat.log2
        rfl
      rw [hz]
      omega
    · have := (Nat.log2_lt (Nat.pos_iff_ne_zero.mp hpos)).mpr hnd
      omega
  · rw [if_neg hdn]
    by_cases hc : d ≤ 2 ^ natLog2 (d / n) * n
    · rw [if_pos hc]
      omega
    · rw [if_neg hc]
      omega

theorem dblHundredths_of_nonpos {n d : Nat}
    (h : max (-1074) (ratILog2 n d - 52) ≤ (0 : Int)) :
    dblHundredths n d =
      rheDiv (100 * rheDiv (n * 2 ^ (-(max (-1074) (ratILog2 n d - 52))).toNat) d)
        (2 ^ (-(max (-1074) (ratILog2 n d - 52))).toNat) := by
  rw [dblHundredths]
  dsimp only
  rw [if_pos h]

theorem dblHundredths_close (n d : Nat) (hd : 0 < d) (hn : n ≤ 100 * d) :
    |(dblHundredths n d : ℚ) / 100 - (n : ℚ) / d| ≤ 1 / 200 + 1 / 2 ^ 47 := by
  have hd' : (0 : ℚ) < d := by exact_mod_cast hd
  have hil : ratILog2 n d ≤ 6 := ratILog2_le_six n d hd hn
  have he0 : max (-1074) (ratILog2 n d - 52) ≤ (0 : Int) := by omega
  have hEexp : 46 ≤ (-(max (-1074) (ratILog2 n d - 52))).toNat := by omega
  rw [dblHundredths_of_nonpos he0]
  set E := 2 ^ (-(max (-1074) (ratILog2 n d - 52))).toNat with hEdef
  have hEpos : 0 < E := Nat.two_pow_pos _
  have hE46 : (2 : Nat) ^ 46 ≤ E := Nat.pow_le_pow_right (by norm_num) hEexp
  have hE' : (0 : ℚ) < (E : ℚ) := by exact_mod_cast hEpos
  set m := rheDiv (n * E) d with hm
  have h1 := rheDiv_close (n * E) d hd
  have h2 := rheDiv_close (100 * m) E hEpos
  have h1' : |(m : ℚ) / E - (n : ℚ) / d| ≤ 1 / (2 * E) := by
    have heq : (m : ℚ) / E - (n : ℚ) / d = ((m : ℚ) - ((n * E : Nat) : ℚ) / d) / E := by
      push_cast
      field_simp
      ring
    rw [heq, abs_div, abs_of_pos hE', div_le_div_iff hE' (by positivity)]
    calc |(m : ℚ) - ((n * E : Nat) : ℚ) / d| * (2 * E)
        ≤ 1 / 2 * (2 * E) := by
          apply mul_le_mul_of_nonneg_right h1 (by positivity)
      _ = 1 * E := by ring
  have h2' : |(rheDiv (100 * m) E : ℚ) / 100 - (m : ℚ) / E| ≤ 1 / 200 := by
    have heq : (rheDiv (100 * m) E : ℚ) / 100 - (m : ℚ) / E
        = ((rheDiv (100 * m) E : ℚ) - ((100 * m : Nat) : ℚ) / E) / 100 := by
      push_cast
      ring
    rw [heq, abs_div]
    rw [show |(100 : ℚ)| = 100 by norm_num]
    rw [div_le_div_iff (by norm_num) (by norm_num)]
    linarith
  have htri := abs_sub_le ((rheDiv (100 * m) E : ℚ) / 100) ((m : ℚ) / E) ((n : ℚ) / d)
  have hbound : 1 / (2 * (E : ℚ)) ≤ 1 / 2 ^ 47 := by
    apply one_div_le_one_div_of_le (by norm_num)
    have hcast : ((2 : Nat) ^ 46 : ℚ) ≤ (E : ℚ) := by exact_mod_cast hE46
    push_cast at hcast
    have h47 : (2 : ℚ) ^ 47 = 2 * 2 ^ 46 := by norm_num
    linarith
  linarith

theorem format_percent_digits (count total : Nat) (ht : 0 < total) :
    format_percent count total =
      toString (dblHundredths (100 * count) total / 100) ++ "." ++
        toString (dblHundredths (100 * count) total % 100 / 10) ++
        toString (dblHundredths (100 * count) total % 10) := by
  have digit : ∀ m, m < 100 →
      ((if m < 10 then "0" ++ toString m else toString m) =
        toString (m / 10) ++ toString (m % 10)) := by decide
  rw [format_percent, if_neg (Nat.pos_iff_ne_zero.mp ht)]
  have hlt : dblHundredths (100 * count) total % 100 < 100 := Nat.mod_lt _ (by omega)
  dsimp only
  rw [digit _ hlt, Nat.mod_mod_of_dvd _ (by omega : (10 : Nat) ∣ 100)]
  simp [String.append_assoc]

/-- C7: `format_percent` returns `"0.00"` whenever `total = 0`; for reachable
inputs (`count ≤ total`, as at every call site) it renders the IEEE-754
double `(count * 100) / total` with exactly two decimal digits, the
rendered hundredths lying within half a hundredth plus the double-precision
error of the exact percentage; and on the spec's examples
`(0,0) ↦ "0.00"`, `(1,3) ↦ "33.33"`, `(3,3) ↦ "100.00"`, as well as on the
float-sensitive inputs `(1,20000) ↦ "0.01"` and `(3,20000) ↦ "0.01"`,
where the double rounding differs from exact rational rounding. -/
theorem claim_C7 :
    format_percent 0 0 = "0.00" ∧
    format_percent 1 3 = "33.33" ∧
    format_percent 3 3 = "100.00" ∧
    format_percent 1 20000 = "0.01" ∧
    format_percent 3 20000 = "0.01" ∧
    (∀ count total : Nat, total = 0 → format_percent count total = "0.00") ∧
    (∀ count total : Nat, 0 < total → count ≤ total →
      ∃ h : Nat,
        format_percent count total =
          toString (h / 100) ++ "." ++ toString (h % 100 / 10) ++ toString (h % 10) ∧
        |(h : ℚ) / 100 - 100 * count / total| ≤ 1 / 200 + 1 / 2 ^ 47) := by
  refine ⟨by decide, by decide, by decide, by decide, by decide, ?_, ?_⟩
  · intro count total h0
    rw [format_percent, if_pos h0]
  · intro count total ht hct
    refine ⟨dblHundredths (100 * count) total,
      format_percent_digits count total ht, ?_⟩
    have hb := dblHundredths_close (100 * count) total ht (by omega)
    push_cast at hb
    exact hb

/-- Witness for C7: the two-decimal rendering statement at `count = 1`,
`total = 20000`, the input where IEEE-754 rounding is decisive. -/
theorem claim_C7_witness :
    ∃ h : Nat,
      format_percent 1 20000 =
        toString (h / 100) ++ "." ++ toString (h % 100 / 10) ++ toString (h % 10) ∧
      |(h : ℚ) / 100 - 100 * 1 / 20000| ≤ 1 / 200 + 1 / 2 ^ 47 :=
  claim_C7.2.2.2.2.2.2 1 20000 (by decide) (by decide)


theorem take_sub_append {name sfx : List Char} (h : sfx <:+ name) :
    name.take (name.length - sfx.length) ++ sfx = name := by
  obtain ⟨t, rfl⟩ := h
  have hlen : (t ++ sfx).length - sfx.length = t.length := by
    rw [List.length_append]
    omega
  rw [hlen, List.take_left]

/-- C8: `sanitize_sample_name` strips the longest matching recognized
suffix (the priority order `.fastq.gz`, `.fq.gz`, `.fastq`, `.fq` always
strips a longest match), returns the filename unchanged when nothing
matches, and on the spec's examples `"sample1.fastq.gz" ↦ "sample1"`,
`"reads.fq" ↦ "reads"`. -/
theorem claim_C8 :
    (∀ name : List Char,
      ((∀ sfx ∈ sample_suffixes, ¬ sfx <:+ name) →
        sanitize_sample_name name = name) ∧
      (∀ sfx ∈ sample_suffixes, sfx <:+ name →
        ∃ s ∈ sample_suffixes, s <:+ name ∧
          sanitize_sample_name name ++ s = name ∧
          ∀ s' ∈ sample_suffixes, s' <:+ name → s'.length ≤ s.length)) ∧
    sanitize_sample_name "sample1.fastq.gz".data = "sample1".data ∧
    sanitize_sample_name "reads.fq".data = "reads".data := by
  refine ⟨fun name => ⟨?_, ?_⟩, by decide, by decide⟩
  · intro hnone
    have h1 : ¬ ".fastq.gz".data <:+ name := hnone _ (by decide)
    have h2 : ¬ ".fq.gz".data <:+ name := hnone _ (by decide)
    have h3 : ¬ ".fastq".data <:+ name := hnone _ (by decide)
    have h4 : ¬ ".fq".data <:+ name := hnone _ (by decide)
    simp [sanitize_sample_name, h1, h2, h3, h4]
  · intro sfx hsfx hmatch
    by_cases hb1 : ".fastq.gz".data <:+ name
    · refine ⟨".fastq.gz".data, by decide, hb1, ?_, ?_⟩
      · have hs : sanitize_sample_name name =
            name.take (name.length - (".fastq.gz".data).length) := by
          simp [sanitize_sample_name, hb1]
        rw [hs]
        exact take_sub_append hb1
      · intro s' hs' hm'
        simp only [sample_suffixes, List.mem_cons, List.not_mem_nil, or_false] at hs'
        rcases hs' with rfl | rfl | rfl | rfl <;> decide
    · by_cases hb2 : ".fq.gz".data <:+ name
      · refine ⟨".fq.gz".data, by decide, hb2, ?_, ?_⟩
        · have hs : sanitize_sample_name name =
              name.take (name.length - (".fq.gz".data).length) := by
            simp [sanitize_sample_name, hb1, hb2]
          rw [hs]
          exact take_sub_append hb2
        · intro s' hs' hm'
          simp only [sample_suffixes, List.mem_cons, List.not_mem_nil, or_false] at hs'
          rcases hs' with rfl | rfl | rfl | rfl
          · exact absurd hm' hb1
          · decide
          · decide
          · decide
      · by_cases hb3 : ".fastq".data <:+ name
        · refine ⟨".fastq".data, by decide, hb3, ?_, ?_⟩
          · have hs : sanitize_sample_name name =
                name.take (name.length - (".fastq".data).length) := by
              simp [sanitize_sample_name, hb1, hb2, hb3]
            rw [hs]
            exact take_sub_append hb3
          · intro s' hs' hm'
            simp only [sample_suffixes, List.mem_cons, List.not_mem_nil, or_false] at hs'
            rcases hs' with rfl | rfl | rfl | rfl
            · exact absurd hm' hb1
            · exact absurd hm' hb2
            · decide
            · decide
        · by_cases hb4 : ".fq".data <:+ name
          · refine ⟨".fq".data, by decide, hb4, ?_, ?_⟩
            · have hs : sanitize_sample_name name =
                  name.take (name.length - (".fq".data).length) := by
                simp [sanitize_sample_name, hb1, hb2, hb3, hb4]
              rw [hs]
              exact take_sub_append hb4
            · intro s' hs' hm'
              simp only [sample_suffixes, List.mem_cons, List.not_mem_nil,
                or_false] at hs'
              rcases hs' with rfl | rfl | rfl | rfl
              · exact absurd hm' hb1
              · exact absurd hm' hb2
              · exact absurd hm' hb3
              · decide
          · simp only [sample_suffixes, List.mem_cons, List.not_mem_nil,
              or_false] at hsfx
            rcases hsfx with rfl | rfl | rfl | rfl
            · exact absurd hmatch hb1
            · exact absurd hmatch hb2
            · exact absurd hmatch hb3
            · exact absurd hmatch hb4

/-- Witness for C8: the stripping statement applied to `"reads.fq"` and its
matching suffix `".fq"`. -/
theorem claim_C8_witness :
    ∃ s ∈ sample_suffixes, s <:+ "reads.fq".data ∧
      sanitize_sample_name "reads.fq".data ++ s = "reads.fq".data ∧
      ∀ s' ∈ sample_suffixes, s' <:+ "reads.fq".data → s'.length ≤ s.length :=
  (claim_C8.1 "reads.fq".data).2 ".fq".data (by decide) (by decide)

/-- C10: a filename that is exactly a recognized suffix is accepted by
`has_fastq_suffix` and sanitized to the empty sample name, so its text
summary row has an empty first (sample-name) field — the line starts with
the tab separator. -/
theorem claim_C10 :
    (has_fastq_suffix ".fastq".data = true ∧
      sanitize_sample_name ".fastq".data = []) ∧
    (has_fastq_suffix ".fastq.gz".data = true ∧
      sanitize_sample_name ".fastq.gz".data = []) ∧
    (has_fastq_suffix ".fq".data = true ∧
      sanitize_sample_name ".fq".data = []) ∧
    (has_fastq_suffix ".fq.gz".data = true ∧
      sanitize_sample_name ".fq.gz".data = []) ∧
    (∀ (total poly10 poly15 poly20 : Nat) (pct10 pct15 pct20 : String),
      (summary_line (String.mk (sanitize_sample_name ".fq.gz".data))
        total poly10 poly15 poly20 pct10 pct15 pct20).data.head? = some '\t') := by
  refine ⟨by decide, by decide, by decide, by decide, ?_⟩
  intro total poly10 poly15 poly20 pct10 pct15 pct20
  have hs : sanitize_sample_name ".fq.gz".data = [] := by decide
  rw [summary_line, hs]
  simp [String.data_append, List.append_assoc]

theorem main_loop_ok (good : List (List Char × (Nat × Nat × Nat × Nat))) :
    ∀ (rest : List (List Char × Except Unit (Nat × Nat × Nat × Nat)))
      (written : List String),
      main_loop (good.map (fun g => (g.1, Except.ok g.2)) ++ rest) written =
        main_loop rest (written ++ good.map (fun g => summary_row_line g.1 g.2)) := by
  induction good with
  | nil => intro rest written; simp
  | cons g good ih =>
    intro rest written
    rw [List.map_cons, List.cons_append]
    show main_loop (good.map _ ++ rest) (written ++ [summary_row_line g.1 g.2]) = _
    rw [ih]
    simp

/-- C4 counterexample: with a single input file whose processing raises an
I/O error, the run aborts without the HTML report, but `polyA_counts.txt`
HAS been created (it already contains the header line) — an output file is
left behind, contrary to the claim. -/
theorem claim_C4_counterexample :
    (main_model [("bad.fastq".data, Except.error ())]).completed = false ∧
    (main_model [("bad.fastq".data, Except.error ())]).htmlWritten = false ∧
    (main_model [("bad.fastq".data, Except.error ())]).txt = some [header_line] ∧
    ¬ (main_model [("bad.fastq".data, Except.error ())]).txt = none := by
  refine ⟨?_, ?_, ?_, ?_⟩ <;> simp [main_model, main_loop]

/-- C4 (amended): if an I/O error occurs while processing an input file,
the run aborts and the HTML report is never written, but the text table
`polyA_counts.txt` is created and written incrementally before and during
processing, so it is left behind containing the header line plus one row
per file fully processed before the failure. -/
theorem claim_C4_amended
    (good : List (List Char × (Nat × Nat × Nat × Nat))) (bad : List Char)
    (tail : List (List Char × Except Unit (Nat × Nat × Nat × Nat))) :
    main_model (good.map (fun g => (g.1, Except.ok g.2)) ++
        (bad, Except.error ()) :: tail) =
      { txt := some (header_line :: good.map (fun g => summary_row_line g.1 g.2)),
        htmlWritten := false, completed := false } := by
  rw [main_model, if_neg (by simp), main_loop_ok]
  rfl

/-! ## Record Reader and Per-File Aggregator (`count_poly_runs`, lines 73-96)

A text stream is modelled by the list of lines `readline` yields before
end of stream.  In Python every such line still carries its trailing
newline (so it is nonempty while the stream lasts, and `if not header`
detects end of stream); reading past the end yields the empty string,
modelled by `head?`/`getD []`. -/

end Polyat
